import Mathlib

/-!
Shallow embedding of the knowledge subsystem of the sufe-ai-bot repository
(Go package `knowledge`, files modelled here: the keyword service with its
document loader and substring search, and the TF-IDF vector service).

Modelling conventions:
* Go strings are `List Char` (Go iterates runes; byte lengths are recovered
  with `Char.utf8Size` where the source uses byte-length `len`).
* Go maps are association lists in insertion order; Go map iteration order
  is unspecified, the list order is a determinization of it.
* Go `float32`/`float64` arithmetic is idealized as real arithmetic.
* Filesystem access is external I/O: a directory walk is modelled as the
  list of outcomes the walk callback observes (a loaded document, a file
  whose read/parse failed, a skipped entry, or a directory-level error).
-/

namespace Knowledge

abbrev Token := List Char

/-- Association-list lookup, modelling a read `m[k]` of a Go map. -/
def mapLookup {α β : Type} [DecidableEq α] (m : List (α × β)) (k : α) : Option β :=
  (m.find? (fun p => p.1 = k)).map Prod.snd

/-- Association-list update, modelling a write `m[k] = v` of a Go map:
replace the binding if the key is present, else append it. -/
def mapInsert {α β : Type} [DecidableEq α] (m : List (α × β)) (k : α) (v : β) :
    List (α × β) :=
  if (m.find? (fun p => p.1 = k)).isSome then
    m.map (fun p => if p.1 = k then (k, v) else p)
  else
    m ++ [(k, v)]

/-- Modelling `m[k]++` on a Go `map[K]int` (missing key reads as 0). -/
def mapBump {α : Type} [DecidableEq α] (m : List (α × Nat)) (k : α) : List (α × Nat) :=
  mapInsert m k ((mapLookup m k).getD 0 + 1)

/-- UTF-8 byte length of a Go string, as used by Go `len` on a string. -/
def byteLen (s : List Char) : Nat :=
  (s.map Char.utf8Size).sum

/-- Go `strings.Contains(s, sub)`: `sub` occurs contiguously in `s`
(the empty string is contained in every string). -/
def containsSub (s sub : List Char) : Bool :=
  decide (sub <:+: s)

/-- Loop of Go `strings.Count` for a nonempty pattern `a :: sub`: scan left
to right, counting non-overlapping occurrences. Every iteration of the Go
loop consumes at least one character, so the loop runs at most `length`
times; the structural `fuel` argument (started at the string's length)
carries that bound and is never exhausted. -/
def countOccAux (a : Char) (sub : List Char) : Nat → List Char → Nat
  | _, [] => 0
  | 0, _ :: _ => 0
  | fuel + 1, c :: rest =>
      if (a :: sub) <+: (c :: rest) then 1 + countOccAux a sub fuel (rest.drop sub.length)
      else countOccAux a sub fuel rest

/-- Go `strings.Count(s, sub)`: for the empty pattern it returns
`utf8.RuneCountInString(s) + 1`; otherwise the number of non-overlapping
occurrences. -/
def countOcc (s sub : List Char) : Nat :=
  match sub with
  | [] => s.length + 1
  | a :: rest => countOccAux a rest s.length s

/-- Go `strings.ToLower`, rune by rune. -/
def lowerStr (s : List Char) : List Char :=
  s.map Char.toLower

/-- The fixed punctuation/whitespace set that `tokenize`'s
`strings.NewReplacer` maps to spaces. -/
def punctChars : List Char :=
  ['.', ',', ';', ':', '!', '?', '(', ')',
   '[', ']', Char.ofNat 123, Char.ofNat 125,
   Char.ofNat 34, Char.ofNat 39, '-', '_',
   Char.ofNat 10, Char.ofNat 9, Char.ofNat 13]

/-- One step of splitting into whitespace-separated fields (`foldr` form). -/
def fieldsStep (c : Char) (acc : List (List Char)) : List (List Char) :=
  if c.isWhitespace then [] :: acc
  else
    match acc with
    | [] => [[c]]
    | g :: gs => (c :: g) :: gs

/-- Go `strings.Fields`: split on whitespace, dropping empty fields. -/
def fields (s : List Char) : List (List Char) :=
  (s.foldr fieldsStep [[]]).filter (fun g => g ≠ [])

/-- Go `isNumber`: every rune is an ASCII digit (vacuously true of `""`). -/
def isNumber (s : List Char) : Bool :=
  s.all (fun c => '0' ≤ c ∧ c ≤ '9')

/-- `SimpleEmbeddingService.tokenize`: lowercase, replace the fixed
punctuation set with spaces, split on whitespace, and keep only words whose
byte length exceeds 2 and that are not all-digit. -/
def tokenize (text : List Char) : List Token :=
  let lowered := lowerStr text
  let replaced := lowered.map (fun c => if c ∈ punctChars then ' ' else c)
  let words := fields replaced
  words.filter (fun w => 2 < byteLen w ∧ ¬ isNumber w)

/-- `Section` of a document (title line, heading level, accumulated body). -/
structure DocSection where
  title : List Char
  level : Nat
  content : List Char
deriving DecidableEq, Repr

/-- `Document`: a knowledge document as produced by `loadDocument`. -/
structure Document where
  id : List Char
  title : List Char
  content : List Char
  filePath : List Char
  modTime : Nat
  sections : List DocSection
deriving DecidableEq, Repr

/-- `KnowledgeService`: the keyword knowledge service's mutable state
(`documents` map and the remembered `knowledgeDir`). -/
structure KnowledgeService where
  documents : List (List Char × Document)
  knowledgeDir : List Char
deriving DecidableEq, Repr

/-- The fresh state built by `NewKnowledgeService`. -/
def NewKnowledgeService : KnowledgeService :=
  { documents := [], knowledgeDir := [] }

/-- `GetDocument`: map lookup; `none` models the `document not found` error. -/
def KnowledgeService.GetDocument (s : KnowledgeService) (id : List Char) : Option Document :=
  mapLookup s.documents id

/-- `GetAllDocuments`: the documents in map order. -/
def KnowledgeService.GetAllDocuments (s : KnowledgeService) : List Document :=
  s.documents.map Prod.snd

/-- The score `SearchDocuments` computes for one document against the
already-lowercased query: 10 if the lowercased title contains the query,
plus the occurrence count of the query in the lowercased content, plus 5
per section whose lowercased title contains the query. -/
def searchScore (doc : Document) (q : List Char) : Nat :=
  (if containsSub (lowerStr doc.title) q then 10 else 0)
    + countOcc (lowerStr doc.content) q
    + (doc.sections.map (fun sec => if containsSub (lowerStr sec.title) q then 5 else 0)).sum

/-- The accumulation loop of `SearchDocuments`: append each document whose
score is positive, and break as soon as `len(results) >= limit`. -/
def searchDocsAux (q : List Char) (limit : Nat) : List Document → List Document → List Document
  | [], results => results
  | d :: rest, results =>
      if 0 < searchScore d q then
        let results' := results ++ [d]
        if limit ≤ results'.length then results'
        else searchDocsAux q limit rest results'
      else searchDocsAux q limit rest results

/-- `SearchDocuments`: lowercase the query once, then scan the documents in
map order. -/
def KnowledgeService.SearchDocuments (s : KnowledgeService) (query : List Char) (limit : Nat) : List Document :=
  searchDocsAux (lowerStr query) limit (s.GetAllDocuments) []

/-- One outcome observed by the `filepath.WalkDir` callback inside
`LoadKnowledgeBase`: a markdown file that `loadDocument` turned into a
document, a file whose `loadDocument` failed (logged and skipped), an entry
that is skipped (directory or non-markdown file), or a directory-level
error passed to the callback (which returns it, aborting the walk). -/
inductive WalkEntry where
  | file (doc : Document)
  | badFile
  | skipped
  | walkErr
deriving DecidableEq, Repr

/-- The walk of `LoadKnowledgeBase` over the directory outcomes: documents
are inserted into the map as they load; a `walkErr` aborts the walk,
leaving the partially filled map, and reports the error. -/
def walkLoad (m : List (List Char × Document)) : List WalkEntry → List (List Char × Document) × Bool
  | [] => (m, false)
  | .file doc :: rest => walkLoad (mapInsert m doc.id doc) rest
  | .badFile :: rest => walkLoad m rest
  | .skipped :: rest => walkLoad m rest
  | .walkErr :: _ => (m, true)

/-- `KnowledgeService.LoadKnowledgeBase`: remember the directory, clear the
`documents` map, then walk the directory (the `os.MkdirAll` bootstrap is
modelled as succeeding). Returns the new state and `true` when the call
returned the walk error. -/
def KnowledgeService.LoadKnowledgeBase (_s : KnowledgeService) (dir : List Char) (entries : List WalkEntry) :
    KnowledgeService × Bool :=
  let walked := walkLoad [] entries
  ({ documents := walked.1, knowledgeDir := dir }, walked.2)

/-- `KnowledgeService.RefreshKnowledgeBase`: reload from the remembered
directory (the directory's current outcomes are the `entries` input). -/
def KnowledgeService.RefreshKnowledgeBase (s : KnowledgeService) (entries : List WalkEntry) :
    KnowledgeService × Bool :=
  KnowledgeService.LoadKnowledgeBase s s.knowledgeDir entries

/-- `SimpleEmbeddingService`: the TF-IDF state. The `vocabulary` map
token→index (indices assigned by an increasing counter in first-seen order)
is a list whose positions are the indices; `idf` is the token→weight map. -/
structure SimpleEmbeddingService where
  vocabulary : List Token
  idf : List (Token × ℝ)

/-- The fresh state built by `NewSimpleEmbeddingService`. -/
def NewSimpleEmbeddingService : SimpleEmbeddingService :=
  { vocabulary := [], idf := [] }

/-- The body of `BuildVocabulary`'s inner token loop: append the token to
the vocabulary if new (`s.vocabulary[token] = vocabIndex++`), and bump the
document-frequency map the first time the token is seen within the current
document (tracked by the per-document `seen` set, the third component). -/
def vocabStep (acc : List Token × List (Token × Nat) × List Token) (t : Token) :
    List Token × List (Token × Nat) × List Token :=
  let vocab := if t ∈ acc.1 then acc.1 else acc.1 ++ [t]
  if t ∈ acc.2.2 then (vocab, acc.2.1, acc.2.2)
  else (vocab, mapBump acc.2.1 t, t :: acc.2.2)

/-- The body of `BuildVocabulary`'s outer loop for one document: tokenize
its content once and run the token loop with a fresh `seen` set. -/
def buildDocStep (vd : List Token × List (Token × Nat)) (d : Document) :
    List Token × List (Token × Nat) :=
  let res := (tokenize d.content).foldl vocabStep (vd.1, vd.2, ([] : List Token))
  (res.1, res.2.1)

/-- The vocabulary and document-frequency map accumulated by
`BuildVocabulary` over the corpus (its state before taking logarithms). -/
def buildVocabDf (documents : List Document) : List Token × List (Token × Nat) :=
  documents.foldl buildDocStep ([], [])

/-- `SimpleEmbeddingService.BuildVocabulary`: reset the state, accumulate
vocabulary and document frequencies over the corpus, then set
`idf[token] = ln(totalDocs / df[token])` for every token of the df map. -/
noncomputable def BuildVocabulary (documents : List Document) : SimpleEmbeddingService :=
  let vd := buildVocabDf documents
  { vocabulary := vd.1,
    idf := vd.2.map (fun p => (p.1, Real.log ((documents.length : ℝ) / (p.2 : ℝ)))) }

/-- The index the vocabulary map assigns to a token: its position in the
first-seen-order vocabulary list. -/
def vocabIndex (vocab : List Token) (t : Token) : Nat :=
  vocab.findIdx (fun u => u = t)

/-- `SimpleEmbeddingService.GetEmbedding`: the TF-IDF vector of a text.
The Go code first builds the term-frequency map over the tokens and then
iterates that map; the map's keys are the distinct tokens, modelled by
`dedup`. A token in the vocabulary sets
`vector[index] = (count/totalTokens) * idf[token]` (an absent idf entry
reads as 0); other tokens are ignored. The Go error result is always nil
and is omitted. -/
noncomputable def GetEmbedding (s : SimpleEmbeddingService) (text : List Char) : List ℝ :=
  let tokens := tokenize text
  tokens.dedup.foldl
    (fun vec t =>
      if t ∈ s.vocabulary then
        vec.set (vocabIndex s.vocabulary t)
          (((tokens.count t : ℝ) / (tokens.length : ℝ)) * ((mapLookup s.idf t).getD 0))
      else vec)
    (List.replicate s.vocabulary.length 0)

/-- `SimpleEmbeddingService.CosineSimilarity`: 0 on length mismatch or when
either squared norm is 0, else `dot / (sqrt(normA) * sqrt(normB))`. -/
noncomputable def CosineSimilarity (a b : List ℝ) : ℝ :=
  if a.length ≠ b.length then 0
  else
    let dotProduct := ((a.zip b).map (fun p => p.1 * p.2)).sum
    let normA := (a.map (fun x => x * x)).sum
    let normB := (b.map (fun x => x * x)).sum
    if normA = 0 ∨ normB = 0 then 0
    else dotProduct / (Real.sqrt normA * Real.sqrt normB)

/-- `VectorKnowledgeService`: embeds a `KnowledgeService` (Go struct
embedding) and adds the embedding state and the per-document vector map. -/
structure VectorKnowledgeService where
  base : KnowledgeService
  embedding : SimpleEmbeddingService
  docVectors : List (List Char × List ℝ)

/-- `VectorKnowledgeService.LoadKnowledgeBase`: run the base load; on its
error return immediately (the base state keeps the mutation the failed
load performed). Otherwise rebuild the vocabulary from the freshly loaded
documents and recreate every document vector. `GetEmbedding` never returns
an error, so its error branch (skip the document) is dead code. -/
noncomputable def VectorKnowledgeService.LoadKnowledgeBase (v : VectorKnowledgeService)
    (dir : List Char) (entries : List WalkEntry) : VectorKnowledgeService × Bool :=
  let loaded := KnowledgeService.LoadKnowledgeBase v.base dir entries
  if loaded.2 then ({ v with base := loaded.1 }, true)
  else
    let docs := KnowledgeService.GetAllDocuments loaded.1
    let emb := BuildVocabulary docs
    let dvs := docs.foldl (fun m doc => mapInsert m doc.id (GetEmbedding emb doc.content)) []
    ({ base := loaded.1, embedding := emb, docVectors := dvs }, false)

/-- `RefreshKnowledgeBase` invoked on a `VectorKnowledgeService`: Go method
promotion selects the embedded `KnowledgeService.RefreshKnowledgeBase`,
which calls `KnowledgeService.LoadKnowledgeBase` (Go has no virtual
dispatch), so only the embedded document state is reloaded; the
`embedding` state and `docVectors` are left untouched. -/
def VectorKnowledgeService.RefreshKnowledgeBase (v : VectorKnowledgeService)
    (entries : List WalkEntry) : VectorKnowledgeService × Bool :=
  let refreshed := KnowledgeService.RefreshKnowledgeBase v.base entries
  ({ v with base := refreshed.1 }, refreshed.2)

/-- The filtering stage of `VectorSearch`: every entry of the `docVectors`
map whose document still exists and whose cosine similarity with the query
vector strictly exceeds the 0.1 relevance threshold. -/
noncomputable def relevantResults (v : VectorKnowledgeService) (queryVector : List ℝ) :
    List (Document × ℝ) :=
  v.docVectors.filterMap (fun p =>
    match mapLookup v.base.documents p.1 with
    | some doc =>
        let score := CosineSimilarity queryVector p.2
        if (0.1 : ℝ) < score then some (doc, score) else none
    | none => none)

/-- `VectorKnowledgeService.VectorSearch`: embed the query, keep the
entries above the relevance threshold, sort by score descending
(`sort.Slice` leaves the order of equal scores unspecified; insertion sort
is one determinization), and truncate to `limit`. -/
noncomputable def VectorSearch (v : VectorKnowledgeService) (query : List Char) (limit : Nat) :
    List (Document × ℝ) :=
  let queryVector := GetEmbedding v.embedding query
  ((relevantResults v queryVector).insertionSort (fun x y => y.2 ≤ x.2)).take limit

/-! ### Generic association-list lemmas -/

theorem mapLookup_mapInsert {α β : Type} [DecidableEq α] (m : List (α × β)) (k t : α) (v : β) :
    mapLookup (mapInsert m k v) t = if t = k then some v else mapLookup m t := by
  unfold mapInsert mapLookup
  by_cases hk : (m.find? (fun p => p.1 = k)).isSome
  · rw [if_pos hk, List.find?_map]
    have hpred : ((fun p : α × β => decide (p.1 = t)) ∘ fun p => if p.1 = k then (k, v) else p)
        = fun p : α × β => decide (p.1 = t) := by
      funext p
      by_cases h : p.1 = k <;> simp [Function.comp, h]
    rw [hpred]
    by_cases ht : t = k
    · subst ht
      obtain ⟨q, hq⟩ := Option.isSome_iff_exists.mp hk
      have hq1 : q.1 = t := by simpa using List.find?_some hq
      rw [hq]
      simp [hq1]
    · rw [if_neg ht]
      cases hfind : m.find? (fun p => decide (p.1 = t)) with
      | none => simp
      | some q =>
          have hq1 : q.1 = t := by simpa using List.find?_some hfind
          have hqk : ¬ q.1 = k := by rw [hq1]; exact ht
          simp [hqk]
  · rw [if_neg hk, List.find?_append]
    rw [Option.not_isSome_iff_eq_none] at hk
    by_cases ht : t = k
    · subst ht
      rw [hk]
      simp
    · rw [if_neg ht]
      have : List.find? (fun p : α × β => decide (p.1 = t)) [(k, v)] = none := by
        simp [Ne.symm ht]
      rw [this, Option.or_none]

/-! ### C9: tokenizer output -/

/-- C9: `tokenize` is a pure function of its input (it is a Lean function
of `text` alone); every token it returns has byte length greater than 2,
is not all-digit, and contains at least one non-digit rune. -/
theorem tokenize_token_shape (text : List Char) (tok : Token) (h : tok ∈ tokenize text) :
    2 < byteLen tok ∧ isNumber tok = false ∧ ∃ c ∈ tok, ¬ ('0' ≤ c ∧ c ≤ '9') := by
  unfold tokenize at h
  simp only [List.mem_filter, decide_eq_true_eq] at h
  obtain ⟨-, hlen, hnum⟩ := h
  rw [Bool.not_eq_true] at hnum
  refine ⟨hlen, hnum, ?_⟩
  obtain ⟨c, hc, hcd⟩ := List.all_eq_false.mp hnum
  exact ⟨c, hc, by simpa using hcd⟩

/-- Witness for C9 at the concrete text `"ab1 cats 42 hi!"`. -/
theorem tokenize_token_shape_witness :
    2 < byteLen "cats".toList ∧ isNumber "cats".toList = false ∧
      ∃ c ∈ "cats".toList, ¬ ('0' ≤ c ∧ c ≤ '9') :=
  tokenize_token_shape "ab1 cats 42 hi!".toList "cats".toList (by decide)

/-! ### C5 and C10: the substring search path -/

/-- Soundness of the `SearchDocuments` loop: everything it returns was
already accumulated or is an input document with positive score. -/
theorem searchDocsAux_mem (q : List Char) (limit : Nat) :
    ∀ (docs acc : List Document) (d : Document), d ∈ searchDocsAux q limit docs acc →
      d ∈ acc ∨ (d ∈ docs ∧ 0 < searchScore d q) := by
  intro docs
  induction docs with
  | nil => intro acc d h; exact Or.inl h
  | cons hd rest ih =>
      intro acc d h
      unfold searchDocsAux at h
      by_cases hs : 0 < searchScore hd q
      · rw [if_pos hs] at h
        by_cases hl : limit ≤ (acc ++ [hd]).length
        · rw [if_pos hl] at h
          rcases List.mem_append.mp h with hin | hin
          · exact Or.inl hin
          · refine Or.inr ⟨?_, ?_⟩
            · simp only [List.mem_singleton] at hin
              exact hin ▸ List.mem_cons_self hd rest
            · simp only [List.mem_singleton] at hin
              exact hin ▸ hs
        · rw [if_neg hl] at h
          rcases ih (acc ++ [hd]) d h with hin | hin
          · rcases List.mem_append.mp hin with h1 | h1
            · exact Or.inl h1
            · simp only [List.mem_singleton] at h1
              exact Or.inr ⟨h1 ▸ List.mem_cons_self hd rest, h1 ▸ hs⟩
          · exact Or.inr ⟨List.mem_cons_of_mem hd hin.1, hin.2⟩
      · rw [if_neg hs] at h
        rcases ih acc d h with hin | hin
        · exact Or.inl hin
        · exact Or.inr ⟨List.mem_cons_of_mem hd hin.1, hin.2⟩

/-- The `SearchDocuments` loop never exceeds `limit` once the accumulator
is below it. -/
theorem searchDocsAux_length_le (q : List Char) (limit : Nat) :
    ∀ (docs acc : List Document), acc.length < limit →
      (searchDocsAux q limit docs acc).length ≤ limit := by
  intro docs
  induction docs with
  | nil => intro acc h; exact Nat.le_of_lt h
  | cons hd rest ih =>
      intro acc h
      unfold searchDocsAux
      by_cases hs : 0 < searchScore hd q
      · rw [if_pos hs]
        by_cases hl : limit ≤ (acc ++ [hd]).length
        · rw [if_pos hl]
          simp only [List.length_append, List.length_singleton]
          omega
        · rw [if_neg hl]
          exact ih (acc ++ [hd]) (by simp only [List.length_append] at hl ⊢; omega)
      · rw [if_neg hs]
        exact ih acc h

/-- The `SearchDocuments` loop never drops accumulated results. -/
theorem searchDocsAux_length_ge (q : List Char) (limit : Nat) :
    ∀ (docs acc : List Document), acc.length ≤ (searchDocsAux q limit docs acc).length := by
  intro docs
  induction docs with
  | nil => intro acc; exact Nat.le_refl _
  | cons hd rest ih =>
      intro acc
      unfold searchDocsAux
      by_cases hs : 0 < searchScore hd q
      · rw [if_pos hs]
        by_cases hl : limit ≤ (acc ++ [hd]).length
        · rw [if_pos hl]
          simp only [List.length_append, List.length_singleton]
          omega
        · rw [if_neg hl]
          calc acc.length ≤ (acc ++ [hd]).length := by simp
            _ ≤ _ := ih (acc ++ [hd])
      · rw [if_neg hs]
        exact ih acc

/-- Weighted section bonus as a count: summing 5 per matching section. -/
theorem sum_map_ite_five (l : List DocSection) (p : DocSection → Bool) :
    (l.map (fun sec => if p sec then 5 else 0)).sum = 5 * l.countP p := by
  induction l with
  | nil => simp
  | cons hd tl ih =>
      simp only [List.map_cons, List.sum_cons, List.countP_cons, ih]
      by_cases h : p hd
      · simp only [h, if_pos, if_true]
        omega
      · simp [h]

/-- Concrete corpus shared by the closed statements below. -/
def docAlpha : Document :=
  { id := "a".toList, title := "Alpha".toList, content := "cats are great".toList,
    filePath := "kb/a.md".toList, modTime := 0, sections := [] }

/-- Second concrete document of the shared corpus. -/
def docBeta : Document :=
  { id := "b".toList, title := "Beta".toList, content := "dogs are great".toList,
    filePath := "kb/b.md".toList, modTime := 0, sections := [] }

/-- A loaded two-document service state used by the closed statements. -/
def svcTwo : KnowledgeService :=
  { documents := [("a".toList, docAlpha), ("b".toList, docBeta)],
    knowledgeDir := "kb".toList }

/-- C5 counterexample: with `limit = 0` the loop still returns the first
matching document, because the bound is checked only after appending; so
the result is not capped at `limit` for every limit. -/
theorem searchDocuments_limit_zero_counterexample :
    (svcTwo.SearchDocuments "cats".toList 0).length = 1 ∧
      ¬ (svcTwo.SearchDocuments "cats".toList 0).length ≤ 0 := by
  decide

/-- C5 (amended to `1 ≤ limit`): the substring path returns only loaded
documents whose score is positive, returns at most `limit` of them, and the
score of a document is 10 for a query occurring in the lowercased title,
plus the count of literal occurrences of the lowercased query in the
lowercased content, plus 5 per section whose lowercased title contains the
query. -/
theorem searchDocuments_props (s : KnowledgeService) (query : List Char) (limit : Nat)
    (hlim : 1 ≤ limit) :
    (∀ d ∈ s.SearchDocuments query limit,
        d ∈ s.GetAllDocuments ∧ 0 < searchScore d (lowerStr query)) ∧
      (s.SearchDocuments query limit).length ≤ limit ∧
      ∀ d : Document, searchScore d (lowerStr query) =
        (if containsSub (lowerStr d.title) (lowerStr query) then 10 else 0)
          + countOcc (lowerStr d.content) (lowerStr query)
          + 5 * d.sections.countP (fun sec => containsSub (lowerStr sec.title) (lowerStr query)) := by
  refine ⟨?_, ?_, ?_⟩
  · intro d hd
    rcases searchDocsAux_mem (lowerStr query) limit s.GetAllDocuments [] d hd with hin | hin
    · exact absurd hin (List.not_mem_nil d)
    · exact ⟨hin.1, hin.2⟩
  · exact searchDocsAux_length_le (lowerStr query) limit s.GetAllDocuments []
      (by simpa using hlim)
  · intro d
    unfold searchScore
    rw [sum_map_ite_five]

/-- Witness for C5 on the concrete two-document corpus with `limit = 5`. -/
theorem searchDocuments_props_witness :
    (∀ d ∈ svcTwo.SearchDocuments "cats".toList 5,
        d ∈ svcTwo.GetAllDocuments ∧ 0 < searchScore d (lowerStr "cats".toList)) ∧
      (svcTwo.SearchDocuments "cats".toList 5).length ≤ 5 ∧
      ∀ d : Document, searchScore d (lowerStr "cats".toList) =
        (if containsSub (lowerStr d.title) (lowerStr "cats".toList) then 10 else 0)
          + countOcc (lowerStr d.content) (lowerStr "cats".toList)
          + 5 * d.sections.countP
              (fun sec => containsSub (lowerStr sec.title) (lowerStr "cats".toList)) :=
  searchDocuments_props svcTwo "cats".toList 5 (by decide)

/-! ### C1: state after a directory-level load failure -/

/-- The walk reports an error exactly when a directory-level error occurs
somewhere in the walk. -/
theorem walkLoad_snd (entries : List WalkEntry) :
    ∀ m, (walkLoad m entries).2 = true ↔ WalkEntry.walkErr ∈ entries := by
  induction entries with
  | nil =>
      intro m
      simp [walkLoad]
  | cons e rest ih =>
      intro m
      cases e with
      | file doc => simpa [walkLoad] using ih (mapInsert m doc.id doc)
      | badFile => simpa [walkLoad] using ih m
      | skipped => simpa [walkLoad] using ih m
      | walkErr => simp [walkLoad]

/-- C1 counterexample: starting from a state holding document `a`, a load
whose directory walk errors immediately returns the error, yet `a` is no
longer observable — the map was cleared before the walk, so the index does
not keep its prior state. -/
theorem loadKnowledgeBase_error_counterexample :
    (KnowledgeService.LoadKnowledgeBase svcTwo "kb".toList [WalkEntry.walkErr]).2 = true ∧
      svcTwo.GetDocument "a".toList = some docAlpha ∧
      (KnowledgeService.LoadKnowledgeBase svcTwo "kb".toList
          [WalkEntry.walkErr]).1.GetDocument "a".toList = none ∧
      (KnowledgeService.LoadKnowledgeBase svcTwo "kb".toList
          [WalkEntry.walkErr]).1.GetAllDocuments = [] := by
  decide

/-- C1 (amended): a load whose walk errors still returns the error, but the
document map does not keep its prior contents: it is cleared at the start
of the call, so the resulting map is independent of the prior state (it
holds exactly the documents loaded before the failing entry), and the call
errors exactly when the walk hits a directory-level error. -/
theorem loadKnowledgeBase_error_amended (s s' : KnowledgeService) (dir : List Char)
    (entries : List WalkEntry) :
    (KnowledgeService.LoadKnowledgeBase s dir entries).1.documents =
        (KnowledgeService.LoadKnowledgeBase s' dir entries).1.documents ∧
      ((KnowledgeService.LoadKnowledgeBase s dir entries).2 = true ↔
        WalkEntry.walkErr ∈ entries) :=
  ⟨rfl, walkLoad_snd entries []⟩

/-! ### C8: vocabulary and IDF construction -/

/-- Reading a token's accumulated document frequency (missing key = 0). -/
def dfCount (m : List (Token × Nat)) (t : Token) : Nat :=
  (mapLookup m t).getD 0

/-- Lookup after a key-preserving value map of an association list. -/
theorem mapLookup_map_snd {α β γ : Type} [DecidableEq α] (m : List (α × β))
    (f : α → β → γ) (t : α) :
    mapLookup (m.map (fun p => (p.1, f p.1 p.2))) t = (mapLookup m t).map (f t) := by
  unfold mapLookup
  rw [List.find?_map]
  have hpred : ((fun p : α × γ => decide (p.1 = t)) ∘ fun p : α × β => (p.1, f p.1 p.2))
      = fun p : α × β => decide (p.1 = t) := by
    funext p
    simp [Function.comp]
  rw [hpred]
  cases hfind : m.find? (fun p => decide (p.1 = t)) with
  | none => simp
  | some q =>
      have hq1 : q.1 = t := by simpa using List.find?_some hfind
      simp [hq1]

/-- The token loop bumps a token's document frequency exactly when the
token occurs in the processed tokens and was not yet seen. -/
theorem foldl_vocabStep_df (toks : List Token) :
    ∀ (v : List Token) (df : List (Token × Nat)) (seen : List Token) (t : Token),
      dfCount (toks.foldl vocabStep (v, df, seen)).2.1 t =
        dfCount df t + (if t ∈ toks ∧ t ∉ seen then 1 else 0) := by
  induction toks with
  | nil =>
      intro v df seen t
      simp
  | cons u rest ih =>
      intro v df seen t
      rw [List.foldl_cons]
      by_cases hu : u ∈ seen
      · rw [show vocabStep (v, df, seen) u =
              ((if u ∈ v then v else v ++ [u]), df, seen) by simp [vocabStep, hu]]
        rw [ih]
        by_cases hts : t ∈ seen
        · simp [hts]
        · by_cases htu : t = u
          · exact absurd (htu ▸ hu) hts
          · simp only [List.mem_cons, htu, false_or]
      · rw [show vocabStep (v, df, seen) u =
              ((if u ∈ v then v else v ++ [u]), mapBump df u, u :: seen) by
            simp [vocabStep, hu]]
        rw [ih]
        by_cases htu : t = u
        · subst htu
          have hbump : dfCount (mapBump df t) t = dfCount df t + 1 := by
            unfold dfCount mapBump
            rw [mapLookup_mapInsert]
            simp
          rw [hbump]
          have hseen : ¬ (t ∈ rest ∧ t ∉ t :: seen) := by
            intro hc
            exact hc.2 (List.mem_cons_self t seen)
          rw [if_neg hseen, if_pos ⟨List.mem_cons_self t rest, hu⟩]
        · have hbump : dfCount (mapBump df u) t = dfCount df t := by
            unfold dfCount mapBump
            rw [mapLookup_mapInsert, if_neg htu]
          rw [hbump]
          have hiff : (t ∈ rest ∧ t ∉ u :: seen) ↔ (t ∈ u :: rest ∧ t ∉ seen) := by
            simp only [List.mem_cons, htu, false_or]
          rw [if_congr hiff rfl rfl]

/-- Accumulated over the corpus, a token's document frequency counts the
documents whose tokenized content contains it (at most once per document). -/
theorem buildVocabDf_dfCount (docs : List Document) :
    ∀ (vd : List Token × List (Token × Nat)) (t : Token),
      dfCount (docs.foldl buildDocStep vd).2 t =
        dfCount vd.2 t + docs.countP (fun d => t ∈ tokenize d.content) := by
  induction docs with
  | nil =>
      intro vd t
      simp
  | cons d rest ih =>
      intro vd t
      rw [List.foldl_cons, ih, List.countP_cons]
      have hstep : dfCount (buildDocStep vd d).2 t =
          dfCount vd.2 t + (if t ∈ tokenize d.content then 1 else 0) := by
        unfold buildDocStep
        have := foldl_vocabStep_df (tokenize d.content) vd.1 vd.2 [] t
        simpa using this
      rw [hstep]
      simp only [decide_eq_true_eq]
      by_cases hd : t ∈ tokenize d.content
      · omega
      · omega

/-- C8: `BuildVocabulary` counts each token at most once per document
toward its document frequency (the frequency equals the number of
documents whose token stream contains the token); a token with document
frequency at least 1 gets `idf = ln(totalDocs / df)`; and the empty corpus
yields the empty vocabulary and empty IDF table. -/
theorem buildVocabulary_df_idf (docs : List Document) (t : Token) :
    dfCount (buildVocabDf docs).2 t = docs.countP (fun d => t ∈ tokenize d.content) ∧
      (0 < docs.countP (fun d => t ∈ tokenize d.content) →
        mapLookup (BuildVocabulary docs).idf t =
          some (Real.log ((docs.length : ℝ) /
            (docs.countP (fun d => t ∈ tokenize d.content) : ℝ)))) ∧
      (BuildVocabulary []).vocabulary = [] ∧ (BuildVocabulary []).idf = [] := by
  have hdf : dfCount (buildVocabDf docs).2 t =
      docs.countP (fun d => t ∈ tokenize d.content) := by
    unfold buildVocabDf
    rw [buildVocabDf_dfCount]
    simp [dfCount, mapLookup]
  refine ⟨hdf, ?_, rfl, rfl⟩
  intro hpos
  show mapLookup ((buildVocabDf docs).2.map
      (fun p => (p.1, Real.log ((docs.length : ℝ) / (p.2 : ℝ))))) t = _
  rw [mapLookup_map_snd (buildVocabDf docs).2 (fun _ n => Real.log ((docs.length : ℝ) / (n : ℝ))) t]
  cases hlook : mapLookup (buildVocabDf docs).2 t with
  | none =>
      exfalso
      rw [← hdf] at hpos
      unfold dfCount at hpos
      rw [hlook] at hpos
      simp at hpos
  | some n =>
      have : n = docs.countP (fun d => t ∈ tokenize d.content) := by
        rw [← hdf]
        unfold dfCount
        rw [hlook]
        rfl
      rw [this]
      rfl

/-- Witness for C8 on the concrete two-document corpus and token `great`
(document frequency 2, hence `idf = ln(2/2)`). -/
theorem buildVocabulary_df_idf_witness :
    dfCount (buildVocabDf [docAlpha, docBeta]).2 "great".toList =
        [docAlpha, docBeta].countP (fun d => "great".toList ∈ tokenize d.content) ∧
      mapLookup (BuildVocabulary [docAlpha, docBeta]).idf "great".toList =
        some (Real.log ((([docAlpha, docBeta] : List Document).length : ℝ) /
          (([docAlpha, docBeta].countP (fun d => "great".toList ∈ tokenize d.content)) : ℝ))) :=
  ⟨(buildVocabulary_df_idf [docAlpha, docBeta] "great".toList).1,
    (buildVocabulary_df_idf [docAlpha, docBeta] "great".toList).2.1 (by decide)⟩

/-! ### C7: the TF-IDF encoding -/

/-- A fold whose step preserves list length preserves it overall. -/
theorem foldl_length_invariant (F : List ℝ → Token → List ℝ)
    (hF : ∀ v t, (F v t).length = v.length) :
    ∀ (ts : List Token) (init : List ℝ), (ts.foldl F init).length = init.length := by
  intro ts
  induction ts with
  | nil => intro init; rfl
  | cons t rest ih =>
      intro init
      rw [List.foldl_cons, ih, hF]

/-- A member token's vocabulary index is within the vocabulary. -/
theorem vocabIndex_lt (vocab : List Token) (t : Token) (h : t ∈ vocab) :
    vocabIndex vocab t < vocab.length := by
  induction vocab with
  | nil => exact absurd h (List.not_mem_nil t)
  | cons a rest ih =>
      unfold vocabIndex at ih ⊢
      rw [List.findIdx_cons]
      by_cases ha : a = t
      · simp [ha]
      · simp only [ha, decide_eq_true_eq, if_false, decide_False]
        have : t ∈ rest := by
          rcases List.mem_cons.mp h with h1 | h1
          · exact absurd h1.symm ha
          · exact h1
        simpa [Nat.succ_lt_succ_iff] using ih this

/-- The vocabulary token stored at a member token's index is the token. -/
theorem getD_vocabIndex (vocab : List Token) (t : Token) (h : t ∈ vocab) :
    vocab.getD (vocabIndex vocab t) [] = t := by
  induction vocab with
  | nil => exact absurd h (List.not_mem_nil t)
  | cons a rest ih =>
      by_cases ha : a = t
      · simp [vocabIndex, List.findIdx_cons, ha]
      · have hmem : t ∈ rest := by
          rcases List.mem_cons.mp h with h1 | h1
          · exact absurd h1.symm ha
          · exact h1
        have hstep : vocabIndex (a :: rest) t = vocabIndex rest t + 1 := by
          unfold vocabIndex
          rw [List.findIdx_cons]
          simp [ha]
        rw [hstep, List.getD_cons_succ]
        exact ih hmem

/-- In a duplicate-free vocabulary, the index of the token at position `j`
is `j`. -/
theorem vocabIndex_getD (vocab : List Token) (hnd : vocab.Nodup) :
    ∀ (j : Nat), j < vocab.length → vocabIndex vocab (vocab.getD j []) = j := by
  induction vocab with
  | nil =>
      intro j hj
      exact absurd hj (by simp)
  | cons a rest ih =>
      intro j hj
      cases j with
      | zero => simp [vocabIndex, List.findIdx_cons]
      | succ j =>
          have hj' : j < rest.length := by simpa using hj
          have ha : a ∉ rest := (List.nodup_cons.mp hnd).1
          have hmem : rest.getD j [] ∈ rest := by
            rw [List.getD_eq_getElem?_getD, List.getElem?_eq_getElem hj']
            exact List.getElem_mem hj'
          have hne : ¬ a = rest.getD j [] := fun hc => ha (hc ▸ hmem)
          rw [List.getD_cons_succ]
          unfold vocabIndex
          rw [List.findIdx_cons]
          simp only [hne, decide_eq_true_eq, if_false, decide_False]
          have hrec := ih (List.nodup_cons.mp hnd).2 j hj'
          unfold vocabIndex at hrec
          rw [List.getD_eq_getElem?_getD] at hrec
          simp [hrec]

/-- Positional description of the vector-update fold of `GetEmbedding`:
position `j` ends up holding `f` of the vocabulary token at `j` if that
token occurs in the processed list, and keeps its initial value otherwise
(vocabulary indices are distinct because the vocabulary has no duplicate
tokens). -/
theorem foldl_set_getD (vocab : List Token) (hnd : vocab.Nodup) (f : Token → ℝ)
    (ts : List Token) :
    ∀ (init : List ℝ), init.length = vocab.length → ∀ j, j < vocab.length →
      (ts.foldl (fun vec t =>
          if t ∈ vocab then vec.set (vocabIndex vocab t) (f t) else vec) init).getD j 0 =
        if vocab.getD j [] ∈ ts then f (vocab.getD j []) else init.getD j 0 := by
  induction ts with
  | nil =>
      intro init hlen j hj
      simp
  | cons t rest ih =>
      intro init hlen j hj
      rw [List.foldl_cons]
      have hlen' : (if t ∈ vocab then init.set (vocabIndex vocab t) (f t) else init).length
          = vocab.length := by
        by_cases ht : t ∈ vocab
        · rw [if_pos ht, List.length_set, hlen]
        · rw [if_neg ht, hlen]
      rw [ih _ hlen' j hj]
      have hvj : vocab.getD j [] = vocab.get ⟨j, hj⟩ := by
        rw [List.getD_eq_getElem?_getD, List.getElem?_eq_getElem hj]
        rfl
      by_cases h1 : vocab.getD j [] ∈ rest
      · rw [if_pos h1, if_pos (List.mem_cons_of_mem t h1)]
      · rw [if_neg h1]
        by_cases h2 : vocab.getD j [] = t
        · have htv : t ∈ vocab := by
            rw [← h2, hvj]
            exact List.get_mem vocab j hj
          have hidx : vocabIndex vocab t = j := by
            rw [← h2]
            exact vocabIndex_getD vocab hnd j hj
          have hmem : vocab.getD j [] ∈ t :: rest := by
            rw [h2]
            exact List.mem_cons_self t rest
          rw [if_pos htv, if_pos hmem, hidx, List.getD_eq_getElem?_getD, List.getElem?_set]
          rw [if_pos rfl, if_pos (by rw [hlen]; exact hj)]
          rw [h2]
          rfl
        · have hmem : ¬ vocab.getD j [] ∈ t :: rest := by
            intro hc
            rcases List.mem_cons.mp hc with hc1 | hc1
            · exact h2 hc1
            · exact h1 hc1
          rw [if_neg hmem]
          by_cases ht : t ∈ vocab
          · rw [if_pos ht]
            have hidx : vocabIndex vocab t ≠ j := by
              intro hc
              exact h2 (hc ▸ getD_vocabIndex vocab t ht)
            rw [List.getD_eq_getElem?_getD, List.getElem?_set, if_neg hidx,
              ← List.getD_eq_getElem?_getD]
          · rw [if_neg ht]

/-- Unconditional positional formula for `GetEmbedding`: position `j` holds
`(count/totalTokens) * idf` for the vocabulary token at `j` (this is 0 when
the token does not occur, since its count is 0). -/
theorem getEmbedding_getD (s : SimpleEmbeddingService) (hnd : s.vocabulary.Nodup)
    (text : List Char) (j : Nat) (hj : j < s.vocabulary.length) :
    (GetEmbedding s text).getD j 0 =
      (((tokenize text).count (s.vocabulary.getD j []) : ℝ) / ((tokenize text).length : ℝ))
        * ((mapLookup s.idf (s.vocabulary.getD j [])).getD 0) := by
  unfold GetEmbedding
  rw [foldl_set_getD s.vocabulary hnd
      (fun t => (((tokenize text).count t : ℝ) / ((tokenize text).length : ℝ))
        * ((mapLookup s.idf t).getD 0))
      (tokenize text).dedup (List.replicate s.vocabulary.length 0)
      (List.length_replicate _ _) j hj]
  by_cases hmem : s.vocabulary.getD j [] ∈ (tokenize text).dedup
  · rw [if_pos hmem]
  · rw [if_neg hmem]
    have hcount : (tokenize text).count (s.vocabulary.getD j []) = 0 := by
      rw [List.count_eq_zero]
      intro hc
      exact hmem (List.mem_dedup.mpr hc)
    rw [hcount, List.getD_eq_getElem?_getD, List.getElem?_replicate, if_pos hj]
    simp

/-- The embedding vector always has exactly the vocabulary's length. -/
theorem getEmbedding_length (s : SimpleEmbeddingService) (text : List Char) :
    (GetEmbedding s text).length = s.vocabulary.length := by
  unfold GetEmbedding
  rw [foldl_length_invariant _ ?_ _ _, List.length_replicate]
  intro v t
  by_cases ht : t ∈ s.vocabulary
  · rw [if_pos ht, List.length_set]
  · rw [if_neg ht]

/-- C7: the encoding of a text against a vocabulary and IDF table has the
vocabulary's length; the entry at a token's index is
`(count / totalTokenCount) * idf[token]` when the token occurs in the
tokenized text and 0 otherwise; tokens absent from the vocabulary touch no
entry (the vector never grows at query time). -/
theorem getEmbedding_tfidf (s : SimpleEmbeddingService) (hnd : s.vocabulary.Nodup)
    (text : List Char) :
    (GetEmbedding s text).length = s.vocabulary.length ∧
      ∀ j, j < s.vocabulary.length →
        (GetEmbedding s text).getD j 0 =
          if s.vocabulary.getD j [] ∈ tokenize text then
            (((tokenize text).count (s.vocabulary.getD j []) : ℝ)
                / ((tokenize text).length : ℝ))
              * ((mapLookup s.idf (s.vocabulary.getD j [])).getD 0)
          else 0 := by
  refine ⟨getEmbedding_length s text, ?_⟩
  intro j hj
  rw [getEmbedding_getD s hnd text j hj]
  by_cases hmem : s.vocabulary.getD j [] ∈ tokenize text
  · rw [if_pos hmem]
  · rw [if_neg hmem]
    have hcount : (tokenize text).count (s.vocabulary.getD j []) = 0 :=
      List.count_eq_zero.mpr hmem
    rw [hcount]
    simp

/-- An embedding state with rational IDF entries, used in witnesses. -/
def embTwo : SimpleEmbeddingService :=
  { vocabulary := ["cats".toList, "dogs".toList],
    idf := [("cats".toList, (2 : ℝ))] }

/-- Witness for C7 on a concrete vocabulary, IDF table and text. -/
theorem getEmbedding_tfidf_witness :
    (GetEmbedding embTwo "cats dogs cats!".toList).length = embTwo.vocabulary.length ∧
      ∀ j, j < embTwo.vocabulary.length →
        (GetEmbedding embTwo "cats dogs cats!".toList).getD j 0 =
          if embTwo.vocabulary.getD j [] ∈ tokenize "cats dogs cats!".toList then
            (((tokenize "cats dogs cats!".toList).count (embTwo.vocabulary.getD j []) : ℝ)
                / ((tokenize "cats dogs cats!".toList).length : ℝ))
              * ((mapLookup embTwo.idf (embTwo.vocabulary.getD j [])).getD 0)
          else 0 :=
  getEmbedding_tfidf embTwo (by decide) "cats dogs cats!".toList

/-! ### C6: the empty query -/

/-- The cosine of an all-zero vector against anything is 0 (the zero-norm
guard fires, or the length guard does). -/
theorem cosineSimilarity_zero_left (a b : List ℝ) (h : ∀ x ∈ a, x = 0) :
    CosineSimilarity a b = 0 := by
  unfold CosineSimilarity
  by_cases hlen : a.length ≠ b.length
  · rw [if_pos hlen]
  · rw [if_neg hlen]
    have hnorm : (a.map (fun x => x * x)).sum = 0 := by
      apply List.sum_eq_zero
      intro y hy
      obtain ⟨x, hx, rfl⟩ := List.mem_map.mp hy
      rw [h x hx]
      ring
    rw [if_pos (Or.inl hnorm)]

/-- The empty text tokenizes to no tokens, hence encodes to the all-zero
vector of vocabulary length. -/
theorem getEmbedding_nil (s : SimpleEmbeddingService) :
    GetEmbedding s [] = List.replicate s.vocabulary.length 0 := rfl

/-- Vector search with the empty query returns no results, for any corpus. -/
theorem vectorSearch_empty_query (v : VectorKnowledgeService) (limit : Nat) :
    VectorSearch v [] limit = [] := by
  unfold VectorSearch
  have hzeros : ∀ x ∈ GetEmbedding v.embedding [], x = 0 := by
    rw [getEmbedding_nil]
    intro x hx
    exact List.eq_of_mem_replicate hx
  have hrel : relevantResults v (GetEmbedding v.embedding []) = [] := by
    unfold relevantResults
    rw [List.filterMap_eq_nil_iff]
    intro p hp
    cases hdoc : mapLookup v.base.documents p.1 with
    | none => simp [hdoc]
    | some doc =>
        have hcos := cosineSimilarity_zero_left (GetEmbedding v.embedding []) p.2 hzeros
        simp only [hdoc, hcos]
        rw [if_neg (by norm_num)]
  show List.take limit (List.insertionSort (fun x y => y.2 ≤ x.2)
      (relevantResults v (GetEmbedding v.embedding []))) = []
  rw [hrel]
  simp

/-- C6: the empty query tokenizes to no tokens, its encoding is the
all-zero vector of vocabulary length, every cosine similarity against it
is 0, and vector search with the empty query returns no results whatever
the corpus. -/
theorem emptyQuery_vectorSearch (v : VectorKnowledgeService) (limit : Nat) :
    tokenize [] = [] ∧
      GetEmbedding v.embedding [] = List.replicate v.embedding.vocabulary.length 0 ∧
      (∀ b : List ℝ, CosineSimilarity (GetEmbedding v.embedding []) b = 0) ∧
      VectorSearch v [] limit = [] := by
  refine ⟨rfl, getEmbedding_nil v.embedding, ?_, vectorSearch_empty_query v limit⟩
  intro b
  apply cosineSimilarity_zero_left
  rw [getEmbedding_nil]
  intro x hx
  exact List.eq_of_mem_replicate hx

/-! ### C10: the empty query on the substring path -/

/-- Unfolding of the search loop on a positive-scoring head document. -/
theorem searchDocsAux_cons_pos (q : List Char) (limit : Nat) (d : Document)
    (rest acc : List Document) (h : 0 < searchScore d q) :
    searchDocsAux q limit (d :: rest) acc =
      if limit ≤ (acc ++ [d]).length then acc ++ [d]
      else searchDocsAux q limit rest (acc ++ [d]) := by
  conv_lhs => rw [searchDocsAux]
  rw [if_pos h]

/-- Every document scores positively against the empty query (the empty
substring occurs in every title, contributing 10). -/
theorem searchScore_empty_query_pos (d : Document) : 0 < searchScore d (lowerStr []) := by
  unfold searchScore
  have htitle : containsSub (lowerStr d.title) (lowerStr []) = true := by
    simp [containsSub, lowerStr]
  rw [if_pos htitle]
  omega

/-- C10: on the substring path the empty query matches every document
(positive score via the title), so a nonempty corpus with `limit ≥ 1`
returns between 1 and `limit` documents — while the vector path returns
nothing for the empty query. -/
theorem emptyQuery_substringSearch (s : KnowledgeService) (limit : Nat)
    (hdocs : s.GetAllDocuments ≠ []) (hlim : 1 ≤ limit) :
    (∀ d ∈ s.GetAllDocuments, 0 < searchScore d (lowerStr [])) ∧
      1 ≤ (s.SearchDocuments [] limit).length ∧
      (s.SearchDocuments [] limit).length ≤ limit ∧
      ∀ (v : VectorKnowledgeService) (lim2 : Nat), VectorSearch v [] lim2 = [] := by
  refine ⟨fun d _ => searchScore_empty_query_pos d, ?_, ?_, fun v lim2 => vectorSearch_empty_query v lim2⟩
  · obtain ⟨d, rest, hd⟩ := List.exists_cons_of_ne_nil hdocs
    unfold KnowledgeService.SearchDocuments
    rw [hd, searchDocsAux_cons_pos _ _ _ _ _ (searchScore_empty_query_pos d)]
    by_cases hl : limit ≤ ([] ++ [d] : List Document).length
    · rw [if_pos hl]
      simp
    · rw [if_neg hl]
      have := searchDocsAux_length_ge (lowerStr []) limit rest ([] ++ [d])
      simpa using this
  · exact searchDocsAux_length_le (lowerStr []) limit s.GetAllDocuments []
      (by simpa using hlim)

/-- Witness for C10 on the concrete two-document corpus with `limit = 3`. -/
theorem emptyQuery_substringSearch_witness :
    (∀ d ∈ svcTwo.GetAllDocuments, 0 < searchScore d (lowerStr [])) ∧
      1 ≤ (svcTwo.SearchDocuments [] 3).length ∧
      (svcTwo.SearchDocuments [] 3).length ≤ 3 ∧
      ∀ (v : VectorKnowledgeService) (lim2 : Nat), VectorSearch v [] lim2 = [] :=
  emptyQuery_substringSearch svcTwo 3 (by decide) (by decide)

/-! ### C3: vector search returns the above-threshold entries, sorted, capped -/

/-- Membership in the filtering stage: an entry carries a still-existing
document and its cosine score, and that score strictly exceeds 0.1. -/
theorem mem_relevantResults (v : VectorKnowledgeService) (qv : List ℝ) (p : Document × ℝ)
    (h : p ∈ relevantResults v qv) :
    (0.1 : ℝ) < p.2 ∧ ∃ id dvec, (id, dvec) ∈ v.docVectors ∧
      mapLookup v.base.documents id = some p.1 ∧ p.2 = CosineSimilarity qv dvec := by
  unfold relevantResults at h
  obtain ⟨a, ha, hfa⟩ := List.mem_filterMap.mp h
  cases hdoc : mapLookup v.base.documents a.1 with
  | none =>
      rw [hdoc] at hfa
      simp at hfa
  | some doc =>
      rw [hdoc] at hfa
      dsimp only at hfa
      by_cases hs : (0.1 : ℝ) < CosineSimilarity qv a.2
      · rw [if_pos hs] at hfa
        have hp := Option.some.inj hfa
        refine ⟨?_, a.1, a.2, ?_, ?_, ?_⟩
        · rw [← hp]
          exact hs
        · simpa using ha
        · rw [← hp, hdoc]
        · rw [← hp]
      · rw [if_neg hs] at hfa
        simp at hfa

/-- The converse: a docVectors entry whose document exists and whose score
beats the threshold appears in the filtering stage. -/
theorem relevantResults_mem (v : VectorKnowledgeService) (qv : List ℝ) (id : List Char)
    (dvec : List ℝ) (doc : Document) (hin : (id, dvec) ∈ v.docVectors)
    (hdoc : mapLookup v.base.documents id = some doc)
    (hs : (0.1 : ℝ) < CosineSimilarity qv dvec) :
    (doc, CosineSimilarity qv dvec) ∈ relevantResults v qv := by
  unfold relevantResults
  apply List.mem_filterMap.mpr
  refine ⟨(id, dvec), hin, ?_⟩
  rw [show ((id, dvec) : List Char × List ℝ).1 = id from rfl]
  rw [hdoc]
  dsimp only
  rw [if_pos hs]

/-- C3: `VectorSearch` returns exactly the documents whose cosine
similarity with the query embedding strictly exceeds 0.1 (a score equal to
0.1 is excluded), in nonincreasing score order, truncated to `limit`
entries after filtering and sorting: every result is an above-threshold
entry; the result is sorted with scores nonincreasing; its length is
`min limit` of the number of above-threshold entries; and whenever the
above-threshold entries fit within `limit`, the result is exactly those
entries (up to the sort's reordering). -/
theorem vectorSearch_spec (v : VectorKnowledgeService) (query : List Char) (limit : Nat) :
    (∀ p ∈ VectorSearch v query limit,
        (0.1 : ℝ) < p.2 ∧ ∃ id dvec, (id, dvec) ∈ v.docVectors ∧
          mapLookup v.base.documents id = some p.1 ∧
          p.2 = CosineSimilarity (GetEmbedding v.embedding query) dvec) ∧
      (∀ (id : List Char) (dvec : List ℝ) (doc : Document),
        (id, dvec) ∈ v.docVectors → mapLookup v.base.documents id = some doc →
        (0.1 : ℝ) < CosineSimilarity (GetEmbedding v.embedding query) dvec →
        (relevantResults v (GetEmbedding v.embedding query)).length ≤ limit →
        (doc, CosineSimilarity (GetEmbedding v.embedding query) dvec) ∈
          VectorSearch v query limit) ∧
      List.Sorted (fun x y : Document × ℝ => y.2 ≤ x.2) (VectorSearch v query limit) ∧
      (VectorSearch v query limit).length =
        min limit (relevantResults v (GetEmbedding v.embedding query)).length ∧
      ((relevantResults v (GetEmbedding v.embedding query)).length ≤ limit →
        (VectorSearch v query limit).Perm
          (relevantResults v (GetEmbedding v.embedding query))) := by
  haveI htot : IsTotal (Document × ℝ) (fun x y => y.2 ≤ x.2) := ⟨fun a b => le_total b.2 a.2⟩
  haveI htrans : IsTrans (Document × ℝ) (fun x y => y.2 ≤ x.2) :=
    ⟨fun _ _ _ hab hbc => le_trans hbc hab⟩
  have hperm := List.perm_insertionSort (fun x y : Document × ℝ => y.2 ≤ x.2)
    (relevantResults v (GetEmbedding v.embedding query))
  have hVS : VectorSearch v query limit =
      (List.insertionSort (fun x y : Document × ℝ => y.2 ≤ x.2)
        (relevantResults v (GetEmbedding v.embedding query))).take limit := rfl
  have hsortmem : ∀ p ∈ VectorSearch v query limit,
      p ∈ relevantResults v (GetEmbedding v.embedding query) := by
    intro p hp
    rw [hVS] at hp
    exact (hperm.mem_iff).mp (List.mem_of_mem_take hp)
  refine ⟨?_, ?_, ?_, ?_, ?_⟩
  · intro p hp
    exact mem_relevantResults v (GetEmbedding v.embedding query) p (hsortmem p hp)
  · intro id dvec doc hin hdoc hs hlen
    have hmem := relevantResults_mem v (GetEmbedding v.embedding query) id dvec doc hin hdoc hs
    rw [hVS, List.take_of_length_le (by rw [List.length_insertionSort]; exact hlen)]
    exact (hperm.mem_iff).mpr hmem
  · rw [hVS]
    exact (List.sorted_insertionSort _ _).sublist (List.take_sublist _ _)
  · rw [hVS, List.length_take, List.length_insertionSort]
  · intro hlen
    rw [hVS, List.take_of_length_le (by rw [List.length_insertionSort]; exact hlen)]
    exact hperm

/-- A fresh, empty vector service, used by closed statements. -/
def vsEmpty : VectorKnowledgeService :=
  { base := NewKnowledgeService, embedding := NewSimpleEmbeddingService, docVectors := [] }

/-- Witness for C3 on the empty vector service. -/
theorem vectorSearch_spec_witness :
    (∀ p ∈ VectorSearch vsEmpty "cats".toList 2,
        (0.1 : ℝ) < p.2 ∧ ∃ id dvec, (id, dvec) ∈ vsEmpty.docVectors ∧
          mapLookup vsEmpty.base.documents id = some p.1 ∧
          p.2 = CosineSimilarity (GetEmbedding vsEmpty.embedding "cats".toList) dvec) ∧
      (∀ (id : List Char) (dvec : List ℝ) (doc : Document),
        (id, dvec) ∈ vsEmpty.docVectors → mapLookup vsEmpty.base.documents id = some doc →
        (0.1 : ℝ) < CosineSimilarity (GetEmbedding vsEmpty.embedding "cats".toList) dvec →
        (relevantResults vsEmpty (GetEmbedding vsEmpty.embedding "cats".toList)).length ≤ 2 →
        (doc, CosineSimilarity (GetEmbedding vsEmpty.embedding "cats".toList) dvec) ∈
          VectorSearch vsEmpty "cats".toList 2) ∧
      List.Sorted (fun x y : Document × ℝ => y.2 ≤ x.2) (VectorSearch vsEmpty "cats".toList 2) ∧
      (VectorSearch vsEmpty "cats".toList 2).length =
        min 2 (relevantResults vsEmpty (GetEmbedding vsEmpty.embedding "cats".toList)).length ∧
      ((relevantResults vsEmpty (GetEmbedding vsEmpty.embedding "cats".toList)).length ≤ 2 →
        (VectorSearch vsEmpty "cats".toList 2).Perm
          (relevantResults vsEmpty (GetEmbedding vsEmpty.embedding "cats".toList))) :=
  vectorSearch_spec vsEmpty "cats".toList 2

/-! ### C2: generation coherence across load and refresh -/

/-- First generation of the C2 scenario: `a.md` with content
`cats and dogs run`. -/
def docCats : Document :=
  { id := "a".toList, title := "Alpha".toList, content := "cats and dogs run".toList,
    filePath := "kb/a.md".toList, modTime := 0, sections := [] }

/-- Second generation of the C2 scenario: the same file rewritten to
`birds fly quickly`. -/
def docBirds : Document :=
  { id := "a".toList, title := "Alpha".toList, content := "birds fly quickly".toList,
    filePath := "kb/a.md".toList, modTime := 1, sections := [] }

/-- The vector service after a successful initial load of the first
generation. -/
noncomputable def vsAfterLoad : VectorKnowledgeService × Bool :=
  VectorKnowledgeService.LoadKnowledgeBase vsEmpty "kb".toList [WalkEntry.file docCats]

/-- The same service after `RefreshKnowledgeBase` once the directory holds
the second generation. -/
noncomputable def vsAfterRefresh : VectorKnowledgeService × Bool :=
  vsAfterLoad.1.RefreshKnowledgeBase [WalkEntry.file docBirds]

/-- C2 evaluated at the failing input: the initial load leaves the
vocabulary coherent with the loaded corpus, but after a completed
(error-free) `RefreshKnowledgeBase` the documents are the new generation
while the vocabulary (and with it the IDF table and document vectors) is
still the one built from the previous corpus — Go method promotion makes
`RefreshKnowledgeBase` call the embedded `KnowledgeService.LoadKnowledgeBase`
only, so the embedding state is never rebuilt on refresh. -/
theorem refresh_mixes_generations :
    vsAfterLoad.2 = false ∧ vsAfterRefresh.2 = false ∧
      vsAfterLoad.1.embedding.vocabulary =
        (BuildVocabulary vsAfterLoad.1.base.GetAllDocuments).vocabulary ∧
      vsAfterRefresh.1.embedding.vocabulary ≠
        (BuildVocabulary vsAfterRefresh.1.base.GetAllDocuments).vocabulary := by
  refine ⟨rfl, rfl, rfl, ?_⟩
  decide

/-! ### C4: single-term monotonic ranking -/

/-- A mapped list sum as an indexed sum over positions. -/
theorem sum_map_eq_sum_range (f : ℝ → ℝ) (l : List ℝ) :
    (l.map f).sum = ∑ j ∈ Finset.range l.length, f (l.getD j 0) := by
  induction l with
  | nil => simp
  | cons a rest ih =>
      rw [List.map_cons, List.sum_cons, List.length_cons, Finset.sum_range_succ']
      simp only [List.getD_cons_succ, List.getD_cons_zero]
      rw [ih]
      ring

/-- A zipped product sum as an indexed sum over positions. -/
theorem sum_zip_eq_sum_range (a : List ℝ) :
    ∀ (b : List ℝ), a.length = b.length →
      ((a.zip b).map (fun p => p.1 * p.2)).sum =
        ∑ j ∈ Finset.range a.length, a.getD j 0 * b.getD j 0 := by
  induction a with
  | nil =>
      intro b _
      simp
  | cons x rest ih =>
      intro b hlen
      cases b with
      | nil => simp at hlen
      | cons y brest =>
          rw [List.zip_cons_cons, List.map_cons, List.sum_cons, List.length_cons,
            Finset.sum_range_succ']
          simp only [List.getD_cons_succ, List.getD_cons_zero]
          rw [ih brest (by simpa using hlen)]
          ring

/-- Monotonicity of `x ↦ x / sqrt (x² + R)` on the nonnegative reals. -/
theorem ratio_mono (x y R : ℝ) (hx : 0 ≤ x) (hxy : x ≤ y) (hR : 0 ≤ R) :
    x / Real.sqrt (x ^ 2 + R) ≤ y / Real.sqrt (y ^ 2 + R) := by
  by_cases hy0 : y = 0
  · have hx0 : x = 0 := le_antisymm (hy0 ▸ hxy) hx
    rw [hx0, hy0, zero_div]
  · have hy : 0 < y := lt_of_le_of_ne (hx.trans hxy) (Ne.symm hy0)
    have hyR : 0 < y ^ 2 + R := by positivity
    by_cases hxR : x ^ 2 + R = 0
    · have hx0 : x = 0 := by nlinarith [sq_nonneg x]
      rw [hx0, zero_div]
      positivity
    · have hxRpos : 0 < x ^ 2 + R := lt_of_le_of_ne (by positivity) (Ne.symm hxR)
      rw [div_le_div_iff₀ (Real.sqrt_pos.mpr hxRpos) (Real.sqrt_pos.mpr hyR)]
      have h1 : x * Real.sqrt (y ^ 2 + R) = Real.sqrt (x ^ 2 * (y ^ 2 + R)) := by
        rw [Real.sqrt_mul (sq_nonneg x), Real.sqrt_sq hx]
      have h2 : y * Real.sqrt (x ^ 2 + R) = Real.sqrt (y ^ 2 * (x ^ 2 + R)) := by
        rw [Real.sqrt_mul (sq_nonneg y), Real.sqrt_sq hy.le]
      rw [h1, h2]
      apply Real.sqrt_le_sqrt
      nlinarith [mul_self_le_mul_self hx hxy]

/-- For a query whose token stream is the single token `w`, the query
embedding is supported on `w`'s index and carries exactly `idf w` there. -/
theorem qv_getD (s : SimpleEmbeddingService) (hnd : s.vocabulary.Nodup)
    (q : List Char) (w : Token) (hq : tokenize q = [w]) (j : Nat)
    (hj : j < s.vocabulary.length) :
    (GetEmbedding s q).getD j 0 =
      if s.vocabulary.getD j [] = w then (mapLookup s.idf w).getD 0 else 0 := by
  rw [getEmbedding_getD s hnd q j hj, hq]
  by_cases hvw : s.vocabulary.getD j [] = w
  · rw [if_pos hvw, hvw]
    simp
  · rw [if_neg hvw]
    have hcount : List.count (s.vocabulary.getD j []) [w] = 0 := by
      rw [List.count_eq_zero]
      simpa using fun hc => hvw hc
    rw [hcount]
    simp

/-- Closed form of the similarity score against a single-token query `w`
present in the vocabulary: the per-document length normalization cancels,
leaving `count(w,d) * |idf w| / sqrt (Σ_j (count_j · idf_j)²)`. -/
theorem cos_single_term (s : SimpleEmbeddingService) (hnd : s.vocabulary.Nodup)
    (q : List Char) (w : Token) (hq : tokenize q = [w]) (hw : w ∈ s.vocabulary)
    (d : List Char) :
    CosineSimilarity (GetEmbedding s q) (GetEmbedding s d) =
      ((tokenize d).count w : ℝ) * |(mapLookup s.idf w).getD 0| /
        Real.sqrt (∑ j ∈ Finset.range s.vocabulary.length,
          (((tokenize d).count (s.vocabulary.getD j []) : ℝ)
            * ((mapLookup s.idf (s.vocabulary.getD j [])).getD 0)) ^ 2) := by
  have hlenq : (GetEmbedding s q).length = s.vocabulary.length := getEmbedding_length s q
  have hlend : (GetEmbedding s d).length = s.vocabulary.length := getEmbedding_length s d
  have hi : vocabIndex s.vocabulary w < s.vocabulary.length := vocabIndex_lt _ _ hw
  have hgi : s.vocabulary.getD (vocabIndex s.vocabulary w) [] = w := getD_vocabIndex _ _ hw
  unfold CosineSimilarity
  rw [if_neg (by simp [hlenq, hlend])]
  rw [sum_zip_eq_sum_range _ _ (by rw [hlenq, hlend]), sum_map_eq_sum_range,
    sum_map_eq_sum_range, hlenq, hlend]
  have hdot : (∑ j ∈ Finset.range s.vocabulary.length,
      (GetEmbedding s q).getD j 0 * (GetEmbedding s d).getD j 0)
      = ((mapLookup s.idf w).getD 0)
        * ((((tokenize d).count w : ℝ) / ((tokenize d).length : ℝ))
          * ((mapLookup s.idf w).getD 0)) := by
    rw [Finset.sum_eq_single_of_mem (vocabIndex s.vocabulary w) (Finset.mem_range.mpr hi)]
    · rw [qv_getD s hnd q w hq _ hi, if_pos hgi, getEmbedding_getD s hnd d _ hi, hgi]
    · intro j hjmem hjne
      rw [qv_getD s hnd q w hq j (Finset.mem_range.mp hjmem)]
      rw [if_neg ?_, zero_mul]
      intro hc
      apply hjne
      have hvi := vocabIndex_getD s.vocabulary hnd j (Finset.mem_range.mp hjmem)
      rw [hc] at hvi
      exact hvi.symm
  have hnormA : (∑ j ∈ Finset.range s.vocabulary.length,
      (GetEmbedding s q).getD j 0 * (GetEmbedding s q).getD j 0)
      = ((mapLookup s.idf w).getD 0) * ((mapLookup s.idf w).getD 0) := by
    rw [Finset.sum_eq_single_of_mem (vocabIndex s.vocabulary w) (Finset.mem_range.mpr hi)]
    · rw [qv_getD s hnd q w hq _ hi, if_pos hgi]
    · intro j hjmem hjne
      rw [qv_getD s hnd q w hq j (Finset.mem_range.mp hjmem)]
      rw [if_neg ?_, zero_mul]
      intro hc
      apply hjne
      have hvi := vocabIndex_getD s.vocabulary hnd j (Finset.mem_range.mp hjmem)
      rw [hc] at hvi
      exact hvi.symm
  have hnormB : (∑ j ∈ Finset.range s.vocabulary.length,
      (GetEmbedding s d).getD j 0 * (GetEmbedding s d).getD j 0)
      = (∑ j ∈ Finset.range s.vocabulary.length,
          (((tokenize d).count (s.vocabulary.getD j []) : ℝ)
            * ((mapLookup s.idf (s.vocabulary.getD j [])).getD 0)) ^ 2)
        / ((tokenize d).length : ℝ) ^ 2 := by
    rw [Finset.sum_div]
    apply Finset.sum_congr rfl
    intro j hj
    rw [getEmbedding_getD s hnd d j (Finset.mem_range.mp hj)]
    ring
  rw [hdot, hnormA, hnormB]
  by_cases hidf0 : (mapLookup s.idf w).getD 0 = 0
  · rw [if_pos (Or.inl (by rw [hidf0]; ring)), hidf0]
    simp
  · by_cases hB0 : (∑ j ∈ Finset.range s.vocabulary.length,
        (((tokenize d).count (s.vocabulary.getD j []) : ℝ)
          * ((mapLookup s.idf (s.vocabulary.getD j [])).getD 0)) ^ 2)
        / ((tokenize d).length : ℝ) ^ 2 = 0
    · rw [if_pos (Or.inr hB0)]
      rcases div_eq_zero_iff.mp hB0 with hS0 | hL0
      · rw [hS0, Real.sqrt_zero, div_zero]
      · have hLz : ((tokenize d).length : ℝ) = 0 :=
          pow_eq_zero_iff (two_ne_zero) |>.mp hL0
        have htoks0 : tokenize d = [] := by
          apply List.eq_nil_of_length_eq_zero
          exact_mod_cast hLz
        rw [htoks0]
        simp
    · rw [if_neg (by
        rintro (hc | hc)
        · exact hidf0 (mul_self_eq_zero.mp hc)
        · exact hB0 hc)]
      have hL0 : ((tokenize d).length : ℝ) ≠ 0 := by
        intro hc
        apply hB0
        rw [hc]
        simp
      have hS0 : (∑ j ∈ Finset.range s.vocabulary.length,
          (((tokenize d).count (s.vocabulary.getD j []) : ℝ)
            * ((mapLookup s.idf (s.vocabulary.getD j [])).getD 0)) ^ 2) ≠ 0 := by
        intro hc
        apply hB0
        rw [hc, zero_div]
      have hSpos : 0 < (∑ j ∈ Finset.range s.vocabulary.length,
          (((tokenize d).count (s.vocabulary.getD j []) : ℝ)
            * ((mapLookup s.idf (s.vocabulary.getD j [])).getD 0)) ^ 2) :=
        lt_of_le_of_ne (Finset.sum_nonneg fun j _ => sq_nonneg _) (Ne.symm hS0)
      have hLpos : 0 < ((tokenize d).length : ℝ) :=
        lt_of_le_of_ne (Nat.cast_nonneg _) (Ne.symm hL0)
      rw [Real.sqrt_mul_self_eq_abs,
        Real.sqrt_div (Finset.sum_nonneg fun j _ => sq_nonneg _),
        Real.sqrt_sq hLpos.le]
      simp only [List.getD_eq_getElem?_getD] at hSpos ⊢
      field_simp [hL0, ne_of_gt (Real.sqrt_pos.mpr hSpos), abs_ne_zero.mpr hidf0]
      rw [show ((mapLookup s.idf w).getD 0)
            * (((tokenize d).count w : ℝ) * ((mapLookup s.idf w).getD 0))
          = ((tokenize d).count w : ℝ)
            * (((mapLookup s.idf w).getD 0) * ((mapLookup s.idf w).getD 0)) from by ring,
        ← abs_mul_abs_self ((mapLookup s.idf w).getD 0)]
      ring

/-- C4: for every single-term query and documents A and B identical except
that A contains one additional occurrence of the query term (same counts
for every other token), the vector-search score of A is at least that of B. -/
theorem vector_score_monotonic (s : SimpleEmbeddingService) (hnd : s.vocabulary.Nodup)
    (q dA dB : List Char) (w : Token) (hq : tokenize q = [w])
    (hcnt : (tokenize dA).count w = (tokenize dB).count w + 1)
    (hoth : ∀ t : Token, t ≠ w → (tokenize dA).count t = (tokenize dB).count t) :
    CosineSimilarity (GetEmbedding s q) (GetEmbedding s dB) ≤
      CosineSimilarity (GetEmbedding s q) (GetEmbedding s dA) := by
  by_cases hw : w ∈ s.vocabulary
  · rw [cos_single_term s hnd q w hq hw dA, cos_single_term s hnd q w hq hw dB]
    have hi : vocabIndex s.vocabulary w < s.vocabulary.length := vocabIndex_lt _ _ hw
    have hgi : s.vocabulary.getD (vocabIndex s.vocabulary w) [] = w := getD_vocabIndex _ _ hw
    rw [← Finset.add_sum_erase _ _ (Finset.mem_range.mpr hi),
      ← Finset.add_sum_erase _ _ (Finset.mem_range.mpr hi)]
    have hR : (∑ j ∈ (Finset.range s.vocabulary.length).erase (vocabIndex s.vocabulary w),
          (((tokenize dB).count (s.vocabulary.getD j []) : ℝ)
            * ((mapLookup s.idf (s.vocabulary.getD j [])).getD 0)) ^ 2)
        = ∑ j ∈ (Finset.range s.vocabulary.length).erase (vocabIndex s.vocabulary w),
          (((tokenize dA).count (s.vocabulary.getD j []) : ℝ)
            * ((mapLookup s.idf (s.vocabulary.getD j [])).getD 0)) ^ 2 := by
      apply Finset.sum_congr rfl
      intro j hj
      have hjne : j ≠ vocabIndex s.vocabulary w := Finset.ne_of_mem_erase hj
      have hjlt : j < s.vocabulary.length :=
        Finset.mem_range.mp (Finset.mem_of_mem_erase hj)
      have hvw : s.vocabulary.getD j [] ≠ w := by
        intro hc
        apply hjne
        have hvi := vocabIndex_getD s.vocabulary hnd j hjlt
        rw [hc] at hvi
        exact hvi.symm
      rw [hoth _ hvw]
    rw [hR, hgi]
    have habs : ∀ c : ℝ, (c * ((mapLookup s.idf w).getD 0)) ^ 2
        = (c * |(mapLookup s.idf w).getD 0|) ^ 2 := by
      intro c
      rw [mul_pow, mul_pow, sq_abs]
    rw [habs, habs]
    have hle : ((tokenize dB).count w : ℝ) * |(mapLookup s.idf w).getD 0|
        ≤ ((tokenize dA).count w : ℝ) * |(mapLookup s.idf w).getD 0| := by
      apply mul_le_mul_of_nonneg_right ?_ (abs_nonneg _)
      rw [hcnt]
      push_cast
      linarith
    exact ratio_mono _ _ _ (by positivity) hle
      (Finset.sum_nonneg fun j _ => sq_nonneg _)
  · have hqv0 : ∀ x ∈ GetEmbedding s q, x = 0 := by
      intro x hx
      obtain ⟨jf, hget⟩ := List.mem_iff_get.mp hx
      have hjlt : (jf : Nat) < s.vocabulary.length := by
        have h1 := jf.isLt
        have h2 : (GetEmbedding s q).length = s.vocabulary.length := getEmbedding_length s q
        omega
      have hgetD : (GetEmbedding s q).getD (jf : Nat) 0 = x := by
        rw [List.getD_eq_getElem?_getD, List.getElem?_eq_getElem jf.isLt]
        simpa [List.get_eq_getElem] using hget
      rw [← hgetD, qv_getD s hnd q w hq _ hjlt]
      have hvw : s.vocabulary.getD (jf : Nat) [] ≠ w := by
        intro hc
        apply hw
        rw [← hc, List.getD_eq_getElem?_getD, List.getElem?_eq_getElem hjlt]
        exact List.getElem_mem hjlt
      rw [if_neg hvw]
    rw [cosineSimilarity_zero_left _ _ hqv0, cosineSimilarity_zero_left _ _ hqv0]

/-- Witness for C4: query `cats`, document A = `cats dogs`, document B =
`dogs`, vocabulary `[cats, dogs]` with idf 2 for `cats`. -/
theorem vector_score_monotonic_witness :
    CosineSimilarity (GetEmbedding embTwo "cats".toList) (GetEmbedding embTwo "dogs".toList) ≤
      CosineSimilarity (GetEmbedding embTwo "cats".toList)
        (GetEmbedding embTwo "cats dogs".toList) := by
  apply vector_score_monotonic embTwo (by decide) "cats".toList "cats dogs".toList
    "dogs".toList "cats".toList (by decide) (by decide)
  intro t ht
  rw [show tokenize "cats dogs".toList = ["cats".toList, "dogs".toList] from by decide,
    show tokenize "dogs".toList = ["dogs".toList] from by decide]
  have hne : ¬ (['c', 'a', 't', 's'] = t) := fun hc => ht (hc.symm.trans (by decide))
  simp [List.count_cons, hne]

end Knowledge
